import Mathlib

/-!
Verification of the `every-range` crate.  `EveryRangeIter` consumes a
sequence of sorted, disjoint, half-open `usize` ranges and produces a
complete partition of `[0, end)` into the original ranges (tagged
`Included`) and synthesized gap ranges (tagged `Excluded`).

Shallow embedding: `usize` becomes `Nat` (the code never does arithmetic
that can overflow: every stored index is bounded by `end`, a value the
caller supplies), the inner Rust iterator becomes an explicit source-step
function `σ → Option Rng × σ` (mirroring `Iterator::next`, which mutates
the source and returns an optional item), and the three `assert!` panics
in `<EveryRangeIter as Iterator>::next` become `Except.error` carrying the
assertion message.
-/

/-- Half-open interval `start..end` (`Range<usize>` in the source). -/
structure Rng where
  start : Nat
  «end» : Nat
  deriving DecidableEq

/-- The `EveryRangeKind` tag distinguishes original input ranges
(`Included`) from dynamically generated gap ranges (`Excluded`). -/
inductive EveryRangeKind where
  | Included
  | Excluded
  deriving DecidableEq

/-- State of `EveryRangeIter`: the cursor `index`, the domain bound
`end`, the inner source iterator state `iter`, and the one-slot pending
buffer `next`. -/
structure EveryRangeIter (σ : Type) where
  index : Nat
  «end» : Nat
  iter : σ
  next : Option Rng
  deriving DecidableEq

/-- Constructor `EveryRangeIter::new`: cursor starts at `0`, buffer
empty. -/
def EveryRangeIter.new {σ : Type} (iter : σ) (e : Nat) : EveryRangeIter σ :=
  { index := 0, «end» := e, iter := iter, next := none }

/-- One call to `<EveryRangeIter as Iterator>::next` (named `step` here
because the structure field `next` occupies that name).  `inner` is the
`next` method of the inner iterator; a returned `Except.error` models a
panic of the corresponding `assert!`. -/
def EveryRangeIter.step {σ : Type} (inner : σ → Option Rng × σ) (s : EveryRangeIter σ) :
    Except String (Option (EveryRangeKind × Rng) × EveryRangeIter σ) :=
  match s.next with
  | some n => .ok (some (.Included, n), { s with index := n.«end», next := none })
  | none =>
    match inner s.iter with
    | (some r, it) =>
      if s.index ≤ r.start then
        if r.«end» ≤ s.«end» then
          if r.start ≤ r.«end» then
            if s.index < r.start then
              .ok (some (.Excluded, ⟨s.index, r.start⟩),
                { s with index := r.start, iter := it, next := some r })
            else
              .ok (some (.Included, r), { s with index := r.«end», iter := it })
          else .error "assertion failed: next.start <= next.end"
        else .error "assertion failed: next.end <= self.end"
      else .error "assertion failed: self.index <= next.start"
    | (none, it) =>
      if s.index < s.«end» then
        .ok (some (.Excluded, ⟨s.index, s.«end»⟩), { s with index := s.«end», iter := it })
      else
        .ok (none, { s with iter := it })

/-- The `Iterator::next` of a list-backed source (`vec.into_iter()`). -/
def listNext : List Rng → Option Rng × List Rng
  | [] => (none, [])
  | r :: rs => (some r, rs)

/-- The `every_range` extension method: `ranges.every_range(end)`. -/
def every_range {σ : Type} (it : σ) (e : Nat) : EveryRangeIter σ :=
  EveryRangeIter.new it e

/-- Pull up to `fuel` items, collecting them; stops early when the
iterator signals completion, and propagates a panic. -/
def steps {σ : Type} (inner : σ → Option Rng × σ) :
    Nat → EveryRangeIter σ →
    Except String (List (EveryRangeKind × Rng) × EveryRangeIter σ)
  | 0, s => .ok ([], s)
  | fuel + 1, s =>
    match s.step inner with
    | .error e => .error e
    | .ok (none, s') => .ok ([], s')
    | .ok (some item, s') =>
      match steps inner fuel s' with
      | .error e => .error e
      | .ok (l, t) => .ok (item :: l, t)

/-- All items produced by `ranges.into_iter().every_range(e)`, collected
in order (`2 * k + 2` pulls always reach completion for `k` source
ranges). -/
def runList (rs : List Rng) (e : Nat) : Except String (List (EveryRangeKind × Rng)) :=
  (steps listNext (2 * rs.length + 2) (EveryRangeIter.new rs e)).map Prod.fst

/-- The input is valid from cursor position `i`: each range is well
formed, within the domain, and starts at or after the end of its
predecessor (first: at or after `i`).  Starting from `i = 0` this is
exactly "sorted, pairwise disjoint, in-bounds" input. -/
def validFrom (i e : Nat) : List Rng → Bool
  | [] => true
  | r :: rs =>
    decide (i ≤ r.start) && decide (r.«end» ≤ e) && decide (r.start ≤ r.«end») &&
      validFrom r.«end» e rs

/-- Predicate `chain a b l`: the ranges of `l` tile `[a, b)` exactly:
the first starts at `a`, each starts where its predecessor ends, the
last ends at `b` (for `l = []` this forces `a = b`). -/
def chain (a b : Nat) : List Rng → Bool
  | [] => a == b
  | r :: rs => (r.start == a) && chain r.«end» b rs

/-- No two consecutive items of the emitted list are both `Excluded`. -/
def noConsecExcluded : List (EveryRangeKind × Rng) → Bool
  | (k1, _) :: (k2, r2) :: l =>
    !(k1 == EveryRangeKind.Excluded && k2 == EveryRangeKind.Excluded) &&
      noConsecExcluded ((k2, r2) :: l)
  | _ => true

/-- The expected output of the whole run, computed directly. -/
def expectedOut (i e : Nat) : List Rng → List (EveryRangeKind × Rng)
  | [] => if i < e then [(.Excluded, ⟨i, e⟩)] else []
  | r :: rs =>
    (if i < r.start then [(.Excluded, ⟨i, r.start⟩)] else []) ++
      (.Included, r) :: expectedOut r.«end» e rs

theorem steps_succ {σ : Type} (inner : σ → Option Rng × σ) (fuel : Nat)
    (s : EveryRangeIter σ) :
    steps inner (fuel + 1) s =
      match s.step inner with
      | .error e => .error e
      | .ok (none, s') => .ok ([], s')
      | .ok (some item, s') =>
        match steps inner fuel s' with
        | .error e => .error e
        | .ok (l, t) => .ok (item :: l, t) := rfl

/-- With the buffer empty, cursor `i ≤ e` and valid remaining input,
running the iterator with fuel at least `2 * k + 2` produces exactly
`expectedOut i e rs` and halts in the drained state. -/
theorem steps_listNext_eq (rs : List Rng) : ∀ i e fuel : Nat,
    validFrom i e rs = true → i ≤ e → 2 * rs.length + 2 ≤ fuel →
    steps listNext fuel ⟨i, e, rs, none⟩ =
      .ok (expectedOut i e rs, ⟨e, e, [], none⟩) := by
  induction rs with
  | nil =>
    intro i e fuel _ hie hfuel
    obtain ⟨f, rfl⟩ : ∃ f, fuel = f + 2 := ⟨fuel - 2, by omega⟩
    by_cases hlt : i < e
    · rw [steps_succ]
      simp only [EveryRangeIter.step, listNext, if_pos hlt]
      rw [steps_succ]
      simp only [EveryRangeIter.step, listNext, lt_irrefl, if_neg (lt_irrefl e)]
      simp [expectedOut, hlt]
    · have hieq : i = e := by omega
      subst hieq
      rw [steps_succ]
      simp only [EveryRangeIter.step, listNext, if_neg hlt]
      simp [expectedOut, hlt]
  | cons r rest ih =>
    intro i e fuel hv hie hfuel
    have hv' : i ≤ r.start ∧ r.«end» ≤ e ∧ r.start ≤ r.«end» ∧
        validFrom r.«end» e rest = true := by
      simpa [validFrom, Bool.and_eq_true, and_assoc] using hv
    obtain ⟨h1, h2, h3, hrest⟩ := hv'
    obtain ⟨f, rfl⟩ : ∃ f, fuel = f + 2 := ⟨fuel - 2, by omega⟩
    by_cases hgap : i < r.start
    · rw [steps_succ]
      simp only [EveryRangeIter.step, listNext, if_pos h1, if_pos h2, if_pos h3,
        if_pos hgap]
      rw [steps_succ]
      simp only [EveryRangeIter.step]
      rw [ih r.«end» e f hrest h2 (by simpa using hfuel)]
      simp [expectedOut, hgap]
    · rw [steps_succ]
      simp only [EveryRangeIter.step, listNext, if_pos h1, if_pos h2, if_pos h3,
        if_neg hgap]
      rw [ih r.«end» e (f + 1) hrest h2 (by simp at hfuel ⊢; omega)]
      simp [expectedOut, hgap]

/-- For valid input the ranges of the expected output tile `[i, e)`. -/
theorem chain_expectedOut (rs : List Rng) : ∀ i e : Nat,
    validFrom i e rs = true → i ≤ e →
    chain i e ((expectedOut i e rs).map Prod.snd) = true := by
  induction rs with
  | nil =>
    intro i e _ hie
    by_cases hlt : i < e
    · simp [expectedOut, chain, hlt]
    · have : i = e := by omega
      simp [expectedOut, chain, hlt, this]
  | cons r rest ih =>
    intro i e hv hie
    have hv' : i ≤ r.start ∧ r.«end» ≤ e ∧ r.start ≤ r.«end» ∧
        validFrom r.«end» e rest = true := by
      simpa [validFrom, Bool.and_eq_true, and_assoc] using hv
    obtain ⟨h1, h2, h3, hrest⟩ := hv'
    by_cases hgap : i < r.start
    · simp [expectedOut, chain, hgap, ih r.«end» e hrest h2]
    · have : r.start = i := by omega
      simp [expectedOut, chain, hgap, this, ih r.«end» e hrest h2]

/-- The `Included` items of the expected output are exactly the input
ranges, in order. -/
theorem included_expectedOut (rs : List Rng) : ∀ i e : Nat,
    ((expectedOut i e rs).filter
      (fun p => p.1 == EveryRangeKind.Included)).map Prod.snd = rs := by
  induction rs with
  | nil =>
    intro i e
    by_cases hlt : i < e <;> simp [expectedOut, hlt]
  | cons r rest ih =>
    intro i e
    by_cases hgap : i < r.start <;> simp [expectedOut, hgap, ih]

/-- Prepending an `Included` item never creates two adjacent `Excluded`
items. -/
theorem noConsecExcluded_included_cons (r : Rng)
    (l : List (EveryRangeKind × Rng)) :
    noConsecExcluded ((EveryRangeKind.Included, r) :: l) = noConsecExcluded l := by
  cases l with
  | nil => rfl
  | cons p rest => cases p with | mk k r2 => simp [noConsecExcluded]

/-- The expected output never holds two adjacent `Excluded` items. -/
theorem noConsecExcluded_expectedOut (rs : List Rng) : ∀ i e : Nat,
    noConsecExcluded (expectedOut i e rs) = true := by
  induction rs with
  | nil =>
    intro i e
    by_cases hlt : i < e <;> simp [expectedOut, hlt, noConsecExcluded]
  | cons r rest ih =>
    intro i e
    by_cases hgap : i < r.start
    · simp only [expectedOut, if_pos hgap, List.singleton_append, noConsecExcluded]
      rw [noConsecExcluded_included_cons]
      simp [ih]
    · simp only [expectedOut, if_neg hgap, List.nil_append]
      rw [noConsecExcluded_included_cons]
      exact ih r.«end» e

theorem length_expectedOut (rs : List Rng) : ∀ i e : Nat,
    (expectedOut i e rs).length ≤ 2 * rs.length + 1 := by
  induction rs with
  | nil =>
    intro i e
    by_cases hlt : i < e <;> simp [expectedOut, hlt]
  | cons r rest ih =>
    intro i e
    by_cases hgap : i < r.start <;>
      · simp only [expectedOut, hgap, if_true, if_false, List.length_append,
          List.length_cons, List.length_singleton, List.length_nil]
        have := ih r.«end» e
        omega

theorem expectedOut_eq_nil (rs : List Rng) (i e : Nat)
    (h : expectedOut i e rs = []) : rs = [] ∧ ¬ i < e := by
  cases rs with
  | nil =>
    refine ⟨rfl, ?_⟩
    intro hlt
    simp [expectedOut, hlt] at h
  | cons r rest =>
    by_cases hgap : i < r.start <;> simp [expectedOut, hgap] at h

theorem step_buffered {σ : Type} (inner : σ → Option Rng × σ)
    (s : EveryRangeIter σ) (n : Rng) (hnx : s.next = some n) :
    s.step inner =
      .ok (some (.Included, n), { s with index := n.«end», next := none }) := by
  simp [EveryRangeIter.step, hnx]

theorem step_source {σ : Type} (inner : σ → Option Rng × σ)
    (s : EveryRangeIter σ) (r : Rng) (it : σ)
    (hnx : s.next = none) (hin : inner s.iter = (some r, it)) :
    s.step inner =
      if s.index ≤ r.start then
        if r.«end» ≤ s.«end» then
          if r.start ≤ r.«end» then
            if s.index < r.start then
              .ok (some (.Excluded, ⟨s.index, r.start⟩),
                { s with index := r.start, iter := it, next := some r })
            else
              .ok (some (.Included, r), { s with index := r.«end», iter := it })
          else .error "assertion failed: next.start <= next.end"
        else .error "assertion failed: next.end <= self.end"
      else .error "assertion failed: self.index <= next.start" := by
  simp [EveryRangeIter.step, hnx, hin]

theorem step_exhausted {σ : Type} (inner : σ → Option Rng × σ)
    (s : EveryRangeIter σ) (it : σ)
    (hnx : s.next = none) (hin : inner s.iter = (none, it)) :
    s.step inner =
      if s.index < s.«end» then
        .ok (some (.Excluded, ⟨s.index, s.«end»⟩),
          { s with index := s.«end», iter := it })
      else
        .ok (none, { s with iter := it }) := by
  simp [EveryRangeIter.step, hnx, hin]

/-- C2: the production step panics (returns `Except.error`, modelling the
Rust `assert!` failures) if and only if the pending buffer is empty and
the source yields a range violating `index <= r.start`, `r.end <= end`
or `r.start <= r.end`; moreover the checks fire in that order, and when
all three hold the step returns `Except.ok`. -/
theorem step_panics_iff_assertion_violated {σ : Type}
    (inner : σ → Option Rng × σ) (s : EveryRangeIter σ) :
    ((∃ msg, s.step inner = .error msg) ↔
      (s.next = none ∧ ∃ r it, inner s.iter = (some r, it) ∧
        ¬(s.index ≤ r.start ∧ r.«end» ≤ s.«end» ∧ r.start ≤ r.«end»))) ∧
    (∀ r it, s.next = none → inner s.iter = (some r, it) →
      ((¬ s.index ≤ r.start →
          s.step inner = .error "assertion failed: self.index <= next.start") ∧
        (s.index ≤ r.start → ¬ r.«end» ≤ s.«end» →
          s.step inner = .error "assertion failed: next.end <= self.end") ∧
        (s.index ≤ r.start → r.«end» ≤ s.«end» → ¬ r.start ≤ r.«end» →
          s.step inner = .error "assertion failed: next.start <= next.end"))) := by
  constructor
  · constructor
    · rintro ⟨msg, hmsg⟩
      rcases hnx : s.next with _ | n
      · rcases hin : inner s.iter with ⟨o, it0⟩
        cases o with
        | none =>
          rw [step_exhausted inner s it0 hnx hin] at hmsg
          split_ifs at hmsg
        | some r =>
          rw [step_source inner s r it0 hnx hin] at hmsg
          split_ifs at hmsg with h1 h2 h3
          · refine ⟨rfl, r, it0, rfl, ?_⟩
            tauto
          · refine ⟨rfl, r, it0, rfl, ?_⟩
            tauto
          · refine ⟨rfl, r, it0, rfl, ?_⟩
            tauto
      · rw [step_buffered inner s n hnx] at hmsg
        simp at hmsg
    · rintro ⟨hnx, r, it0, hin, hviol⟩
      rw [step_source inner s r it0 hnx hin]
      split_ifs with h1 h2 h3 h4
      · exact absurd ⟨h1, h2, h3⟩ hviol
      · exact absurd ⟨h1, h2, h3⟩ hviol
      · exact ⟨_, rfl⟩
      · exact ⟨_, rfl⟩
      · exact ⟨_, rfl⟩
  · intro r it0 hnx hin
    rw [step_source inner s r it0 hnx hin]
    refine ⟨fun h1 => ?_, fun h1 h2 => ?_, fun h1 h2 h3 => ?_⟩
    · rw [if_neg h1]
    · rw [if_pos h1, if_neg h2]
    · rw [if_pos h1, if_pos h2, if_neg h3]

/-- State invariant: `cursor <= end` (the `0 <= cursor` half is inherent
in `Nat`), strengthened with what is always true of the pending buffer:
a buffered range starts at the cursor, is well formed, and stays inside
the domain. -/
def IterInv {σ : Type} (s : EveryRangeIter σ) : Bool :=
  decide (s.index ≤ s.«end») &&
    match s.next with
    | none => true
    | some r =>
      decide (s.index = r.start) && decide (r.start ≤ r.«end») &&
        decide (r.«end» ≤ s.«end»)

/-- C5: the invariant `0 <= cursor <= end` holds at construction and is
preserved by every non-panicking step, and every emitted range runs from
the pre-step cursor to the post-step cursor (hence emission is
non-decreasing and non-overlapping). -/
theorem cursor_invariant {σ : Type} (inner : σ → Option Rng × σ)
    (s s' : EveryRangeIter σ) (out : Option (EveryRangeKind × Rng))
    (hinv : IterInv s = true) (hstep : s.step inner = .ok (out, s')) :
    (∀ (τ : Type) (it : τ) (e : Nat), IterInv (EveryRangeIter.new it e) = true) ∧
    IterInv s' = true ∧ s.index ≤ s'.index ∧
    ∀ k r, out = some (k, r) → r.start = s.index ∧ r.«end» = s'.index := by
  refine ⟨fun τ it e => by simp [IterInv, EveryRangeIter.new], ?_⟩
  rcases hnx : s.next with _ | n
  · rcases hin : inner s.iter with ⟨o, it0⟩
    cases o with
    | none =>
      rw [step_exhausted inner s it0 hnx hin] at hstep
      simp only [IterInv, hnx, Bool.and_eq_true, decide_eq_true_eq] at hinv
      split_ifs at hstep with h
      · simp only [Except.ok.injEq, Prod.mk.injEq] at hstep
        obtain ⟨hout, hs'⟩ := hstep
        subst hs'
        subst hout
        refine ⟨by simp [IterInv, hnx], le_of_lt h, ?_⟩
        rintro k r2 hk
        simp only [Option.some.injEq, Prod.mk.injEq] at hk
        obtain ⟨-, hr⟩ := hk
        subst hr
        exact ⟨rfl, rfl⟩
      · simp only [Except.ok.injEq, Prod.mk.injEq] at hstep
        obtain ⟨hout, hs'⟩ := hstep
        subst hs'
        subst hout
        refine ⟨by simp [IterInv, hnx]; omega, le_refl _, ?_⟩
        rintro k r2 hk
        exact absurd hk (by simp)
    | some r =>
      rw [step_source inner s r it0 hnx hin] at hstep
      simp only [IterInv, hnx, Bool.and_eq_true, decide_eq_true_eq] at hinv
      split_ifs at hstep with h1 h2 h3 h4
      · simp only [Except.ok.injEq, Prod.mk.injEq] at hstep
        obtain ⟨hout, hs'⟩ := hstep
        subst hs'
        subst hout
        refine ⟨by simp [IterInv]; omega, h1, ?_⟩
        rintro k r2 hk
        simp only [Option.some.injEq, Prod.mk.injEq] at hk
        obtain ⟨-, hr⟩ := hk
        subst hr
        exact ⟨rfl, rfl⟩
      · simp only [Except.ok.injEq, Prod.mk.injEq] at hstep
        obtain ⟨hout, hs'⟩ := hstep
        subst hs'
        subst hout
        refine ⟨by simp [IterInv, hnx]; omega, ?_, ?_⟩
        · show s.index ≤ r.«end»
          omega
        rintro k r2 hk
        simp only [Option.some.injEq, Prod.mk.injEq] at hk
        obtain ⟨-, hr⟩ := hk
        subst hr
        exact ⟨by omega, rfl⟩
  · rw [step_buffered inner s n hnx] at hstep
    simp only [IterInv, hnx, Bool.and_eq_true, decide_eq_true_eq] at hinv
    simp only [Except.ok.injEq, Prod.mk.injEq] at hstep
    obtain ⟨hout, hs'⟩ := hstep
    subst hs'
    subst hout
    refine ⟨by simp [IterInv]; omega, ?_, ?_⟩
    · show s.index ≤ n.«end»
      omega
    rintro k r2 hk
    simp only [Option.some.injEq, Prod.mk.injEq] at hk
    obtain ⟨-, hr⟩ := hk
    subst hr
    exact ⟨by omega, rfl⟩

/-- C9: an emitted `Excluded` range is never empty: its start is
strictly below its end (only `Included` ranges can be empty). -/
theorem excluded_nonempty {σ : Type} (inner : σ → Option Rng × σ)
    (s s' : EveryRangeIter σ) (r : Rng)
    (h : s.step inner = .ok (some (.Excluded, r), s')) :
    r.start < r.«end» := by
  rcases hnx : s.next with _ | n
  · rcases hin : inner s.iter with ⟨o, it0⟩
    cases o with
    | none =>
      rw [step_exhausted inner s it0 hnx hin] at h
      split_ifs at h with hlt
      · simp only [Except.ok.injEq, Prod.mk.injEq, Option.some.injEq] at h
        obtain ⟨⟨-, hr⟩, -⟩ := h
        subst hr
        exact hlt
      · simp at h
    | some r0 =>
      rw [step_source inner s r0 it0 hnx hin] at h
      split_ifs at h with h1 h2 h3 h4
      · simp only [Except.ok.injEq, Prod.mk.injEq, Option.some.injEq] at h
        obtain ⟨⟨-, hr⟩, -⟩ := h
        subst hr
        exact h4
      · simp at h
  · rw [step_buffered inner s n hnx] at h
    simp at h

/-- For valid input the collected run succeeds and equals the expected
output. -/
theorem runList_eq (rs : List Rng) (e : Nat) (h : validFrom 0 e rs = true) :
    runList rs e = .ok (expectedOut 0 e rs) := by
  show (steps listNext (2 * rs.length + 2) ⟨0, e, rs, none⟩).map Prod.fst = _
  rw [steps_listNext_eq rs 0 e (2 * rs.length + 2) h (Nat.zero_le e) (le_refl _)]
  rfl

/-- C1: for every valid input (sorted, pairwise disjoint, well-formed,
in-bounds ranges) the iterator panics nowhere and the emitted ranges,
concatenated in order, tile `[0, e)` exactly: the first starts at `0`,
each starts where its predecessor ended, and the last ends at `e`. -/
theorem coverage_reconstructs_domain (rs : List Rng) (e : Nat)
    (h : validFrom 0 e rs = true) :
    runList rs e = .ok (expectedOut 0 e rs) ∧
    chain 0 e ((expectedOut 0 e rs).map Prod.snd) = true :=
  ⟨runList_eq rs e h, chain_expectedOut rs 0 e h (Nat.zero_le e)⟩

theorem coverage_reconstructs_domain_witness :
    runList [⟨0, 1⟩, ⟨1, 2⟩, ⟨2, 3⟩, ⟨5, 6⟩, ⟨6, 7⟩, ⟨7, 8⟩,
        ⟨10, 11⟩, ⟨11, 12⟩, ⟨12, 13⟩] 15 =
      .ok (expectedOut 0 15 [⟨0, 1⟩, ⟨1, 2⟩, ⟨2, 3⟩, ⟨5, 6⟩, ⟨6, 7⟩, ⟨7, 8⟩,
        ⟨10, 11⟩, ⟨11, 12⟩, ⟨12, 13⟩]) ∧
    chain 0 15 ((expectedOut 0 15 [⟨0, 1⟩, ⟨1, 2⟩, ⟨2, 3⟩, ⟨5, 6⟩, ⟨6, 7⟩, ⟨7, 8⟩,
        ⟨10, 11⟩, ⟨11, 12⟩, ⟨12, 13⟩]).map Prod.snd) = true :=
  coverage_reconstructs_domain
    [⟨0, 1⟩, ⟨1, 2⟩, ⟨2, 3⟩, ⟨5, 6⟩, ⟨6, 7⟩, ⟨7, 8⟩, ⟨10, 11⟩, ⟨11, 12⟩, ⟨12, 13⟩]
    15 (by decide)

/-- C3: for every valid input, the subsequence of emitted items tagged
`Included`, projected to its ranges, is exactly the input sequence:
same ranges, same order, none dropped, modified or duplicated. -/
theorem included_items_are_input (rs : List Rng) (e : Nat)
    (h : validFrom 0 e rs = true) :
    (runList rs e).map
      (fun out =>
        (out.filter (fun p => p.1 == EveryRangeKind.Included)).map Prod.snd) =
      .ok rs := by
  rw [runList_eq rs e h]
  simp only [Except.map]
  rw [included_expectedOut rs 0 e]

theorem included_items_are_input_witness :
    (runList [⟨3, 4⟩, ⟨4, 5⟩, ⟨8, 9⟩, ⟨9, 10⟩, ⟨13, 14⟩, ⟨14, 15⟩] 15).map
      (fun out =>
        (out.filter (fun p => p.1 == EveryRangeKind.Included)).map Prod.snd) =
      .ok [⟨3, 4⟩, ⟨4, 5⟩, ⟨8, 9⟩, ⟨9, 10⟩, ⟨13, 14⟩, ⟨14, 15⟩] :=
  included_items_are_input [⟨3, 4⟩, ⟨4, 5⟩, ⟨8, 9⟩, ⟨9, 10⟩, ⟨13, 14⟩, ⟨14, 15⟩]
    15 (by decide)

/-- C4: for every valid input, no two consecutive emitted items are both
`Excluded`: every `Excluded` item is followed by an `Included` item or by
the end of the output. -/
theorem no_two_consecutive_excluded (rs : List Rng) (e : Nat)
    (h : validFrom 0 e rs = true) :
    (runList rs e).map noConsecExcluded = .ok true := by
  rw [runList_eq rs e h]
  simp only [Except.map]
  rw [noConsecExcluded_expectedOut rs 0 e]

theorem no_two_consecutive_excluded_witness :
    (runList [⟨2, 4⟩, ⟨4, 5⟩, ⟨9, 9⟩] 12).map noConsecExcluded = .ok true :=
  no_two_consecutive_excluded [⟨2, 4⟩, ⟨4, 5⟩, ⟨9, 9⟩] 12 (by decide)

/-- C6: for every valid finite input of `k` ranges the output is a
finite list of at most `2k + 1` items, and it is empty only when
`e = 0` and the source is empty. -/
theorem output_finite_and_bounded (rs : List Rng) (e : Nat)
    (h : validFrom 0 e rs = true) :
    (runList rs e).map (fun out => decide (out.length ≤ 2 * rs.length + 1)) =
      .ok true ∧
    (runList rs e = .ok [] → e = 0 ∧ rs = []) := by
  rw [runList_eq rs e h]
  constructor
  · simp only [Except.map, Except.ok.injEq, decide_eq_true_eq]
    exact length_expectedOut rs 0 e
  · intro hnil
    simp only [Except.ok.injEq] at hnil
    obtain ⟨hrs, hlt⟩ := expectedOut_eq_nil rs 0 e hnil
    exact ⟨by omega, hrs⟩

theorem output_finite_and_bounded_witness :
    (runList [⟨1, 3⟩, ⟨3, 6⟩] 6).map
      (fun out => decide (out.length ≤ 2 * [Rng.mk 1 3, Rng.mk 3 6].length + 1)) =
      .ok true ∧
    (runList [⟨1, 3⟩, ⟨3, 6⟩] 6 = .ok [] → (6 : Nat) = 0 ∧ [Rng.mk 1 3, Rng.mk 3 6] = []) :=
  output_finite_and_bounded [⟨1, 3⟩, ⟨3, 6⟩] 6 (by decide)

/-- A source iterator that is not fused: it yields nothing on the first
pull and then yields `0..0` on the second (its state is the number of
pulls made so far). -/
def resumingSource : Nat → Option Rng × Nat
  | 0 => (none, 1)
  | 1 => (some ⟨0, 0⟩, 2)
  | n + 2 => (none, n + 3)

/-- C7 (refuted on the code): with `end = 0` over `resumingSource`, the
first production step signals completion, yet the second step emits
`(Included, 0..0)` — completion is not permanent for a source that
yields a further range after once signalling exhaustion, although the
code's unconditional `FusedIterator` implementation promises exactly
that. -/
theorem completion_not_permanent :
    (EveryRangeIter.new (0 : Nat) 0).step resumingSource =
      .ok (none, ⟨0, 0, 1, none⟩) ∧
    EveryRangeIter.step resumingSource ⟨0, 0, 1, none⟩ =
      .ok (some (.Included, ⟨0, 0⟩), ⟨0, 0, 2, none⟩) :=
  ⟨rfl, rfl⟩

/-- C8: from an empty source, `end = 0` means the very first step
signals completion and the collected output is empty, and `end = e > 0`
means the output is exactly one item, `(Excluded, 0..e)`. -/
theorem empty_source_behavior :
    (EveryRangeIter.new ([] : List Rng) 0).step listNext =
      .ok (none, ⟨0, 0, [], none⟩) ∧
    runList [] 0 = .ok [] ∧
    ∀ e : Nat, 0 < e → runList [] e = .ok [(.Excluded, ⟨0, e⟩)] := by
  refine ⟨rfl, rfl, fun e he => ?_⟩
  rw [runList_eq [] e rfl]
  simp [expectedOut, he]

theorem empty_source_behavior_witness :
    runList [] 3 = .ok [(.Excluded, ⟨0, 3⟩)] :=
  empty_source_behavior.2.2 3 (by decide)

/-- C10: a zero-length range `a..a` with `cursor <= a <= e` passes the
assertions and is emitted verbatim as `Included` with the cursor left at
`a` (directly when `a` equals the cursor, after one `Excluded` gap item
when `a` lies beyond it); in particular `[0..0)` with `end = 0` produces
one `Included` item rather than zero items. -/
theorem zero_length_range_included :
    (∀ (i a e : Nat) (rest : List Rng), i ≤ a → a ≤ e →
      (i = a →
        EveryRangeIter.step listNext ⟨i, e, ⟨a, a⟩ :: rest, none⟩ =
          .ok (some (.Included, ⟨a, a⟩), ⟨a, e, rest, none⟩)) ∧
      (i < a →
        EveryRangeIter.step listNext ⟨i, e, ⟨a, a⟩ :: rest, none⟩ =
          .ok (some (.Excluded, ⟨i, a⟩), ⟨a, e, rest, some ⟨a, a⟩⟩) ∧
        EveryRangeIter.step listNext ⟨a, e, rest, some ⟨a, a⟩⟩ =
          .ok (some (.Included, ⟨a, a⟩), ⟨a, e, rest, none⟩))) ∧
    runList [⟨0, 0⟩] 0 = .ok [(.Included, ⟨0, 0⟩)] := by
  refine ⟨fun i a e rest hia hae => ⟨fun heq => ?_, fun hlt => ⟨?_, rfl⟩⟩, rfl⟩
  · subst heq
    simp [EveryRangeIter.step, listNext, hae]
  · simp [EveryRangeIter.step, listNext, hia, hae, hlt]

theorem zero_length_range_included_witness :
    EveryRangeIter.step listNext ⟨1, 4, [⟨3, 3⟩], none⟩ =
      .ok (some (.Excluded, ⟨1, 3⟩), ⟨3, 4, [], some ⟨3, 3⟩⟩) ∧
    EveryRangeIter.step listNext ⟨3, 4, [], some ⟨3, 3⟩⟩ =
      .ok (some (.Included, ⟨3, 3⟩), ⟨3, 4, [], none⟩) :=
  (zero_length_range_included.1 1 3 4 [] (by decide) (by decide)).2 (by decide)

theorem step_panics_iff_assertion_violated_witness :
    EveryRangeIter.step listNext (⟨5, 10, [⟨3, 4⟩], none⟩ : EveryRangeIter (List Rng)) =
      .error "assertion failed: self.index <= next.start" :=
  ((step_panics_iff_assertion_violated listNext
      (⟨5, 10, [⟨3, 4⟩], none⟩ : EveryRangeIter (List Rng))).2
    ⟨3, 4⟩ [] rfl rfl).1 (by decide)

theorem cursor_invariant_witness :
    IterInv (⟨1, 5, ([] : List Rng), some ⟨1, 3⟩⟩ : EveryRangeIter (List Rng)) = true ∧
    (Rng.mk 0 1).start = 0 ∧ (Rng.mk 0 1).«end» = 1 := by
  have h := cursor_invariant listNext
    (⟨0, 5, [⟨1, 3⟩], none⟩ : EveryRangeIter (List Rng))
    ⟨1, 5, [], some ⟨1, 3⟩⟩ (some (.Excluded, ⟨0, 1⟩)) (by decide) rfl
  exact ⟨h.2.1, h.2.2.2 .Excluded ⟨0, 1⟩ rfl⟩

theorem excluded_nonempty_witness :
    (Rng.mk 0 5).start < (Rng.mk 0 5).«end» :=
  excluded_nonempty listNext (⟨0, 5, [], none⟩ : EveryRangeIter (List Rng))
    ⟨5, 5, [], none⟩ ⟨0, 5⟩ rfl
